import Mathlib

/-!
# Verification of the eth-gov-nakamoto pipeline

A shallow embedding, in Lean 4, of the governance-decentralisation pipeline:

* `src/compute_nakamoto.py` — the Nakamoto-coefficient computation
  (`compute_nakamoto_coefficient`), the per-EIP organisation share
  aggregation (`process_organizations`), and the two inline coefficient
  loops of `generate_text_report` and `text_visualize_shares`;
* `src/parse_eips.py` — organisation resolution for an EIP author
  (`get_organizations`);
* `scripts/update_org_mapping.py` — canonicalisation of a raw organisation
  string (`process_organization`);
* `src/parse_core_devs.py` — attendee extraction from meeting notes
  (`extract_meeting_attendees`), including a backtracking interpreter for
  the concrete regular expressions the source uses.

Python floats are modelled as exact rationals (`ℚ`); Python sets are
modelled as duplicate-free lists built by insertion order (only membership
and counts of these sets are ever consumed downstream, so the unspecified
iteration order of a Python set is immaterial to every statement proved
here).  Python strings are modelled as `String` / `List Char`.
-/

namespace GovNakamoto

/-! ## Small Python-string helpers shared by the models -/

/-- `x in s` as used by Python set emulation: add an element to a
duplicate-free list unless already present (`set.add`). -/
def pyAdd (l : List String) (x : String) : List String :=
  if x ∈ l then l else l ++ [x]

/-- Python whitespace class `\s` (ASCII range, as matched by `re` on the
data the pipeline handles). -/
def isPySpace (c : Char) : Bool :=
  c = ' ' ∨ c = '\t' ∨ c = '\n' ∨ c = '\r' ∨ c = '\x0b' ∨ c = '\x0c'

/-- Python `str.strip()` on a char list. -/
def pyStripL (l : List Char) : List Char :=
  ((l.dropWhile isPySpace).reverse.dropWhile isPySpace).reverse

/-- Python `str.strip()`. -/
def pyStrip (s : String) : String := String.mk (pyStripL s.data)

/-- Python `str.lower()` (ASCII case folding, as in all data handled). -/
def pyLower (s : String) : String := String.mk (s.data.map Char.toLower)

/-! ## Model of `compute_nakamoto_coefficient` (src/compute_nakamoto.py)

A data frame of `(entity, share)` rows is a `List (String × ℚ)`. -/

/-- Lexicographic (code-point) order on strings, the order `pandas.groupby`
uses for its string group keys. -/
def lexLeB : List Char → List Char → Bool
  | [], _ => true
  | _ :: _, [] => false
  | a :: as, b :: bs =>
    if a.toNat < b.toNat then true
    else if b.toNat < a.toNat then false
    else lexLeB as bs

def strLeB (a b : String) : Bool := lexLeB a.data b.data

/-- `df.groupby(entity_col)[share_col].sum()` restricted to one key: the sum
of the shares of all rows carrying entity label `k`. -/
def keySum (rows : List (String × ℚ)) (k : String) : ℚ :=
  ((rows.filter (fun p => decide (p.1 = k))).map (fun p => p.2)).sum

/-- The distinct entity labels of the frame, in the ascending label order
`pandas.groupby` emits. -/
def groupKeys (rows : List (String × ℚ)) : List String :=
  List.insertionSort (fun a b => strLeB a b = true) ((rows.map (fun p => p.1)).dedup)

/-- `df.groupby(entity_col)[share_col].sum().reset_index()`: one row per
distinct entity, share = sum of that entity's shares. -/
def entityShares (rows : List (String × ℚ)) : List (String × ℚ) :=
  (groupKeys rows).map (fun k => (k, keySum rows k))

/-- `sort_values(by=share_col, ascending=False)`.  pandas' default quicksort
leaves the relative order of tied shares unspecified; a stable descending
sort is one admissible outcome, and nothing proved below depends on the tie
order. -/
def sortByShareDesc (l : List (String × ℚ)) : List (String × ℚ) :=
  List.insertionSort (fun p q => q.2 ≤ p.2) l

/-- The accumulation loop of `compute_nakamoto_coefficient` (lines 56-66):
`cumulative_sum += share; entities_needed += 1; if cumulative_sum >=
threshold: break`, returning `entities_needed` (the list length when the
threshold is never reached, `0` for an empty frame). -/
def nakaLoop (threshold : ℚ) : List ℚ → ℚ → ℕ
  | [], _ => 0
  | s :: rest, cum =>
    if threshold ≤ cum + s then 1 else 1 + nakaLoop threshold rest (cum + s)

/-- The descending share column the loop consumes. -/
def sharesDesc (rows : List (String × ℚ)) : List ℚ :=
  (sortByShareDesc (entityShares rows)).map (fun p => p.2)

/-- `compute_nakamoto_coefficient(df, entity_col, share_col, threshold)`. -/
def compute_nakamoto_coefficient (rows : List (String × ℚ)) (threshold : ℚ) : ℕ :=
  nakaLoop threshold (sharesDesc rows) 0

/-- The inline accumulation loop shared by `generate_text_report`
(lines 535-541) and `text_visualize_shares` (lines 287-293): identical to
`nakaLoop` except that it breaks on `cumulative > 0.5` (strictly-exceed). -/
def strictLoop (threshold : ℚ) : List ℚ → ℚ → ℕ
  | [], _ => 0
  | s :: rest, cum =>
    if threshold < cum + s then 1 else 1 + strictLoop threshold rest (cum + s)

/-- The "Nakamoto Coefficient" printed by `generate_text_report`: sort
descending, truncate to `head(min(100000, len))`, accumulate with the
strictly-exceed test at threshold 0.5.  (No per-entity grouping happens at
this call site.) -/
def generate_text_report_nakamoto (rows : List (String × ℚ)) : ℕ :=
  strictLoop (mkRat 1 2) (((sortByShareDesc rows).take 100000).map (fun p => p.2)) 0

/-- The "Nakamoto Coefficient" printed by `text_visualize_shares`: sort
descending, truncate to the top `min(15, len)` rows, accumulate with the
strictly-exceed test at threshold 0.5. -/
def text_visualize_shares_nakamoto (rows : List (String × ℚ)) : ℕ :=
  strictLoop (mkRat 1 2) (((sortByShareDesc rows).take 15).map (fun p => p.2)) 0

/-! ### Basic properties of the grouping step -/

theorem keySum_append (A B : List (String × ℚ)) (k : String) :
    keySum (A ++ B) k = keySum A k + keySum B k := by
  simp [keySum, List.filter_append]

theorem keySum_cons (p : String × ℚ) (l : List (String × ℚ)) (k : String) :
    keySum (p :: l) k = (if p.1 = k then p.2 else 0) + keySum l k := by
  by_cases h : p.1 = k <;> simp [keySum, List.filter_cons, h]

theorem dedup_middle (e : String) (B : List String) :
    ∀ A : List String, (A ++ e :: e :: B).dedup = (A ++ e :: B).dedup
  | [] => by
    simpa using List.dedup_cons_of_mem (a := e) (l := e :: B) (List.mem_cons_self e B)
  | c :: A => by
    have hmem : c ∈ A ++ e :: e :: B ↔ c ∈ A ++ e :: B := by
      simp only [List.mem_append, List.mem_cons]
      tauto
    by_cases hc : c ∈ A ++ e :: B
    · rw [List.cons_append, List.cons_append,
        List.dedup_cons_of_mem (hmem.2 hc), List.dedup_cons_of_mem hc,
        dedup_middle e B A]
    · rw [List.cons_append, List.cons_append,
        List.dedup_cons_of_not_mem (fun h => hc (hmem.1 h)),
        List.dedup_cons_of_not_mem hc, dedup_middle e B A]

/-- Splitting one row `(e, s1 + s2)` into two rows `(e, s1), (e, s2)` leaves
the grouped frame unchanged: `groupby` re-merges them. -/
theorem entityShares_split (l1 l2 : List (String × ℚ)) (e : String) (s1 s2 : ℚ) :
    entityShares (l1 ++ (e, s1 + s2) :: l2) = entityShares (l1 ++ (e, s1) :: (e, s2) :: l2) := by
  have hkeys : groupKeys (l1 ++ (e, s1 + s2) :: l2) = groupKeys (l1 ++ (e, s1) :: (e, s2) :: l2) := by
    unfold groupKeys
    congr 1
    have h2 : (l1 ++ (e, s1) :: (e, s2) :: l2).map (fun p => p.1)
        = (l1.map (fun p => p.1)) ++ e :: e :: (l2.map (fun p => p.1)) := by simp
    have h1 : (l1 ++ (e, s1 + s2) :: l2).map (fun p => p.1)
        = (l1.map (fun p => p.1)) ++ e :: (l2.map (fun p => p.1)) := by simp
    rw [h1, h2, dedup_middle]
  unfold entityShares
  rw [hkeys]
  apply List.map_congr_left
  intro k _
  have hsum : keySum (l1 ++ (e, s1 + s2) :: l2) k = keySum (l1 ++ (e, s1) :: (e, s2) :: l2) k := by
    rw [keySum_append, keySum_append, keySum_cons, keySum_cons, keySum_cons]
    by_cases h : e = k <;> simp [h] <;> ring
  rw [hsum]

/-- C10 (theorem): `compute_nakamoto_coefficient` merges rows with the same
entity label by summing their shares before ranking, so the result is
invariant under splitting one entity's share across two rows. -/
theorem compute_nakamoto_split_row_invariant
    (l1 l2 : List (String × ℚ)) (e : String) (s1 s2 : ℚ) (t : ℚ) :
    compute_nakamoto_coefficient (l1 ++ (e, s1 + s2) :: l2) t
      = compute_nakamoto_coefficient (l1 ++ (e, s1) :: (e, s2) :: l2) t := by
  unfold compute_nakamoto_coefficient sharesDesc
  rw [entityShares_split]

/-! ### Monotonicity of the threshold loop -/

theorem nakaLoop_mono (t t' : ℚ) (h : t ≤ t') :
    ∀ (ss : List ℚ) (c : ℚ), nakaLoop t ss c ≤ nakaLoop t' ss c
  | [], _ => le_refl _
  | s :: rest, c => by
    simp only [nakaLoop]
    by_cases h2 : t' ≤ c + s
    · simp [h2, le_trans h h2]
    · by_cases h1 : t ≤ c + s
      · simp only [if_pos h1, if_neg h2]
        exact Nat.le_add_right 1 _
      · simp only [if_neg h1, if_neg h2]
        exact Nat.add_le_add_left (nakaLoop_mono t t' h rest (c + s)) 1

/-- C9 (theorem): for a fixed non-empty frame of rows with non-negative
shares, the returned coefficient is monotonically non-decreasing in the
threshold. -/
theorem compute_nakamoto_monotone_in_threshold
    (rows : List (String × ℚ)) (t t' : ℚ)
    (hpos : ∀ p ∈ rows, 0 ≤ p.2) (hne : rows ≠ []) (ht : t ≤ t') :
    compute_nakamoto_coefficient rows t ≤ compute_nakamoto_coefficient rows t' :=
  nakaLoop_mono t t' ht (sharesDesc rows) 0

/-- C9 (witness): the monotonicity theorem applied at a concrete frame and
concrete thresholds. -/
theorem compute_nakamoto_monotone_in_threshold_witness :
    (∀ p ∈ [("A", mkRat 3 10), ("B", mkRat 7 10)], 0 ≤ p.2) ∧
    ([("A", mkRat 3 10), ("B", mkRat 7 10)] : List (String × ℚ)) ≠ [] ∧
    (mkRat 1 2 : ℚ) ≤ mkRat 3 4 ∧
    compute_nakamoto_coefficient [("A", mkRat 3 10), ("B", mkRat 7 10)] (mkRat 1 2)
      ≤ compute_nakamoto_coefficient [("A", mkRat 3 10), ("B", mkRat 7 10)] (mkRat 3 4) :=
  ⟨by decide, by decide, by decide,
    compute_nakamoto_monotone_in_threshold _ _ _ (by decide) (by decide) (by decide)⟩

/-! ### The loop returns the least covering prefix -/

theorem sum_map_ite_of_not_mem {M : Type} [AddCommMonoid M] (c : String) (x : M) :
    ∀ K : List String, c ∉ K → (K.map (fun k => if c = k then x else 0)).sum = 0
  | [], _ => rfl
  | k :: K, h => by
    have hck : ¬ c = k := fun hc => h (hc ▸ List.mem_cons_self k K)
    have hK : c ∉ K := fun hc => h (List.mem_cons_of_mem k hc)
    simp [hck, sum_map_ite_of_not_mem c x K hK]

theorem sum_map_ite_of_mem {M : Type} [AddCommMonoid M] (c : String) (x : M) :
    ∀ K : List String, K.Nodup → c ∈ K → (K.map (fun k => if c = k then x else 0)).sum = x
  | [], _, h => absurd h (List.not_mem_nil c)
  | k :: K, hnd, h => by
    by_cases hck : c = k
    · subst hck
      have : c ∉ K := (List.nodup_cons.1 hnd).1
      simp [sum_map_ite_of_not_mem c x K this]
    · have hK : c ∈ K := (List.mem_cons.1 h).resolve_left hck
      simp [hck, sum_map_ite_of_mem c x K (List.nodup_cons.1 hnd).2 hK]

theorem sum_map_add_dist {M : Type} [AddCommMonoid M] (f g : String → M) :
    ∀ K : List String, (K.map (fun k => f k + g k)).sum = (K.map f).sum + (K.map g).sum
  | [] => by simp
  | k :: K => by
    simp only [List.map_cons, List.sum_cons, sum_map_add_dist f g K]
    abel

/-- Summing the per-key share sums over any duplicate-free key list that
covers the frame gives back the total share of the frame. -/
theorem sum_keySum (K : List String) (hnd : K.Nodup) :
    ∀ rows : List (String × ℚ), (∀ p ∈ rows, p.1 ∈ K) →
    (K.map (fun k => keySum rows k)).sum = (rows.map (fun p => p.2)).sum
  | [], _ => by simp [keySum]
  | p :: rest, hc => by
    have h1 : (K.map (fun k => keySum (p :: rest) k)).sum
        = (K.map (fun k => (if p.1 = k then p.2 else 0) + keySum rest k)).sum := by
      congr 1
      exact List.map_congr_left (fun k _ => keySum_cons p rest k)
    rw [h1, sum_map_add_dist,
      sum_map_ite_of_mem p.1 p.2 K hnd (hc p (List.mem_cons_self p rest)),
      sum_keySum K hnd rest (fun q hq => hc q (List.mem_cons_of_mem p hq))]
    simp

/-- Grouping and re-sorting preserve the total share. -/
theorem sharesDesc_sum (rows : List (String × ℚ)) :
    (sharesDesc rows).sum = (rows.map (fun p => p.2)).sum := by
  unfold sharesDesc sortByShareDesc
  rw [((List.perm_insertionSort (fun p q : String × ℚ => q.2 ≤ p.2) (entityShares rows)).map
    (fun p : String × ℚ => p.2)).sum_eq]
  unfold entityShares groupKeys
  rw [List.map_map]
  rw [((List.perm_insertionSort (fun a b : String => strLeB a b = true)
      ((rows.map (fun p => p.1)).dedup)).map
      ((fun p : String × ℚ => p.2) ∘ (fun k => (k, keySum rows k)))).sum_eq]
  exact sum_keySum _ (List.nodup_dedup _) rows
    (fun p hp => List.mem_dedup.2 (List.mem_map.2 ⟨p, hp, rfl⟩))

theorem sharesDesc_ne_nil (rows : List (String × ℚ)) (h : rows ≠ []) :
    sharesDesc rows ≠ [] := by
  match rows, h with
  | p :: rest, _ =>
    have hk : p.1 ∈ ((p :: rest).map (fun q => q.1)).dedup :=
      List.mem_dedup.2 (List.mem_map.2 ⟨p, List.mem_cons_self p rest, rfl⟩)
    have hk2 : p.1 ∈ groupKeys (p :: rest) :=
      ((List.perm_insertionSort _ _).mem_iff).2 hk
    have hlen : (p.1, keySum (p :: rest) p.1) ∈ entityShares (p :: rest) :=
      List.mem_map.2 ⟨p.1, hk2, rfl⟩
    intro hcon
    have : entityShares (p :: rest) = [] := by
      have hperm := List.perm_insertionSort (fun a b : String × ℚ => b.2 ≤ a.2)
        (entityShares (p :: rest))
      have := congrArg List.length hcon
      simp only [sharesDesc, List.length_map, List.length_nil] at this
      exact List.eq_nil_of_length_eq_zero (hperm.length_eq.symm.trans this)
    rw [this] at hlen
    exact List.not_mem_nil _ hlen

/-- The source loop stops at the first 1-based position whose running total
reaches or exceeds the threshold: given that the whole list suffices, the
returned count is the least `k ≥ 1` whose prefix reaches the threshold. -/
theorem nakaLoop_isLeast (t : ℚ) :
    ∀ ss : List ℚ, ss ≠ [] → ∀ c : ℚ, t ≤ c + ss.sum →
    IsLeast {k : ℕ | 1 ≤ k ∧ t ≤ c + (ss.take k).sum} (nakaLoop t ss c)
  | [], h, _, _ => absurd rfl h
  | s :: rest, _, c, htot => by
    by_cases h1 : t ≤ c + s
    · constructor
      · refine ⟨by simp [nakaLoop, h1], ?_⟩
        simp [nakaLoop, h1]
      · intro k hk
        simpa [nakaLoop, h1] using hk.1
    · cases rest with
      | nil =>
        exfalso
        apply h1
        simpa using htot
      | cons r2 rest2 =>
        have htot2 : t ≤ (c + s) + (r2 :: rest2).sum := by
          rw [List.sum_cons] at htot
          calc t ≤ c + (s + (r2 :: rest2).sum) := htot
            _ = (c + s) + (r2 :: rest2).sum := by ring
        obtain ⟨⟨hm1, hm2⟩, hlb⟩ :=
          nakaLoop_isLeast t (r2 :: rest2) (by simp) (c + s) htot2
        have hloop : nakaLoop t (s :: r2 :: rest2) c
            = 1 + nakaLoop t (r2 :: rest2) (c + s) := by
          simp [nakaLoop, h1]
        constructor
        · refine ⟨by omega, ?_⟩
          rw [hloop, Nat.add_comm 1 _, List.take_succ_cons, List.sum_cons, ← add_assoc]
          exact hm2
        · intro k hk
          obtain ⟨hk1, hk2⟩ := hk
          obtain ⟨j, rfl⟩ : ∃ j, k = j + 1 := ⟨k - 1, by omega⟩
          rw [List.take_succ_cons, List.sum_cons, ← add_assoc] at hk2
          cases j with
          | zero =>
            exfalso
            apply h1
            simpa using hk2
          | succ j2 =>
            have hj : j2 + 1 ∈ {k : ℕ | 1 ≤ k ∧ t ≤ (c + s) + ((r2 :: rest2).take k).sum} :=
              ⟨by omega, hk2⟩
            have := hlb hj
            omega

/-- C1 (theorem): for any frame of rows and any threshold the total share
reaches, `compute_nakamoto_coefficient` returns the count of entities
consumed when the running cumulative total of the descending per-entity
shares first reaches or exceeds the threshold: for a non-empty frame this
is the least `k ≥ 1` whose top-`k` shares sum to at least the threshold
(boundary element included, reach-or-exceed), and for the degenerate empty
frame (possible only when `t ≤ 0`) no entity is consumed. -/
theorem compute_nakamoto_least_covering
    (rows : List (String × ℚ)) (t : ℚ)
    (hpos : ∀ p ∈ rows, 0 ≤ p.2)
    (htot : t ≤ (rows.map (fun p => p.2)).sum) :
    (rows = [] → compute_nakamoto_coefficient rows t = 0) ∧
    (rows ≠ [] → IsLeast {k : ℕ | 1 ≤ k ∧ t ≤ ((sharesDesc rows).take k).sum}
      (compute_nakamoto_coefficient rows t)) := by
  constructor
  · rintro rfl
    rfl
  · intro hne
    have hsum : t ≤ 0 + (sharesDesc rows).sum := by
      rw [zero_add, sharesDesc_sum]
      exact htot
    have := nakaLoop_isLeast t (sharesDesc rows) (sharesDesc_ne_nil rows hne) 0 hsum
    simpa only [zero_add] using this

unseal Rat.add in
/-- C1 (witness): the least-covering-prefix theorem applied at the frame
`[(A, 3/10), (B, 1/4), (C, 1/5), (D, 3/20), (E, 1/10)]` and threshold 1/2. -/
theorem compute_nakamoto_least_covering_witness :
    (∀ p ∈ [("A", mkRat 3 10), ("B", mkRat 1 4), ("C", mkRat 1 5),
        ("D", mkRat 3 20), ("E", mkRat 1 10)], 0 ≤ p.2) ∧
    (mkRat 1 2 : ℚ) ≤ (([("A", mkRat 3 10), ("B", mkRat 1 4), ("C", mkRat 1 5),
        ("D", mkRat 3 20), ("E", mkRat 1 10)] : List (String × ℚ)).map (fun p => p.2)).sum ∧
    (([("A", mkRat 3 10), ("B", mkRat 1 4), ("C", mkRat 1 5),
        ("D", mkRat 3 20), ("E", mkRat 1 10)] : List (String × ℚ)) ≠ [] →
      IsLeast {k : ℕ | 1 ≤ k ∧ mkRat 1 2 ≤ ((sharesDesc [("A", mkRat 3 10), ("B", mkRat 1 4),
        ("C", mkRat 1 5), ("D", mkRat 3 20), ("E", mkRat 1 10)]).take k).sum}
      (compute_nakamoto_coefficient [("A", mkRat 3 10), ("B", mkRat 1 4), ("C", mkRat 1 5),
        ("D", mkRat 3 20), ("E", mkRat 1 10)] (mkRat 1 2))) :=
  ⟨by decide, by decide,
    (compute_nakamoto_least_covering _ _ (by decide) (by decide)).2⟩

/-! ### The three coefficient call sites and their boundary conventions -/

unseal Rat.add in
/-- C2 (counterexample): on the distribution `[(A, 1/2), (B, 1/2)]`,
`compute_nakamoto_coefficient` at threshold 0.5 returns 1 (its loop breaks
on `cumulative >= threshold`), while the inline loops of
`generate_text_report` and `text_visualize_shares` both return 2 (they
break on `cumulative > 0.5`): the boundary convention is not applied
uniformly across the call sites, refuting the claim. -/
theorem coefficient_conventions_differ :
    compute_nakamoto_coefficient [("A", mkRat 1 2), ("B", mkRat 1 2)] (mkRat 1 2) = 1 ∧
    generate_text_report_nakamoto [("A", mkRat 1 2), ("B", mkRat 1 2)] = 2 ∧
    text_visualize_shares_nakamoto [("A", mkRat 1 2), ("B", mkRat 1 2)] = 2 ∧
    generate_text_report_nakamoto [("A", mkRat 1 2), ("B", mkRat 1 2)]
      ≠ compute_nakamoto_coefficient [("A", mkRat 1 2), ("B", mkRat 1 2)] (mkRat 1 2) ∧
    text_visualize_shares_nakamoto [("A", mkRat 1 2), ("B", mkRat 1 2)]
      ≠ compute_nakamoto_coefficient [("A", mkRat 1 2), ("B", mkRat 1 2)] (mkRat 1 2) := by
  decide

instance : IsTotal (String × ℚ) (fun p q => q.2 ≤ p.2) := ⟨fun a b => le_total b.2 a.2⟩

instance : IsTrans (String × ℚ) (fun p q => q.2 ≤ p.2) := ⟨fun _ _ _ h1 h2 => le_trans h2 h1⟩

instance : IsAntisymm ℚ (fun a b : ℚ => b ≤ a) := ⟨fun a b h1 h2 => le_antisymm h2 h1⟩

theorem keySum_eq_zero_of_not_mem {rows : List (String × ℚ)} {k : String}
    (h : k ∉ rows.map (fun p => p.1)) : keySum rows k = 0 := by
  have hf : rows.filter (fun p => decide (p.1 = k)) = [] := by
    rw [List.filter_eq_nil]
    intro p hp hk
    exact h (List.mem_map.2 ⟨p, hp, of_decide_eq_true hk⟩)
  simp [keySum, hf]

theorem map_keySum_reconstruct :
    ∀ rows : List (String × ℚ), (rows.map (fun p => p.1)).Nodup →
    (rows.map (fun p => p.1)).map (fun k => (k, keySum rows k)) = rows
  | [], _ => rfl
  | p :: rest, hnd => by
    have hp : p.1 ∉ rest.map (fun q => q.1) := (List.nodup_cons.1 (by simpa using hnd)).1
    have hnd2 : (rest.map (fun q => q.1)).Nodup := (List.nodup_cons.1 (by simpa using hnd)).2
    simp only [List.map_cons]
    congr 1
    · rw [keySum_cons]
      simp [keySum_eq_zero_of_not_mem hp]
    · have hcg : ∀ k ∈ rest.map (fun q => q.1),
          (k, keySum (p :: rest) k) = (k, keySum rest k) := by
        intro k hk
        have hne : ¬ p.1 = k := fun h => hp (h ▸ hk)
        rw [keySum_cons, if_neg hne, zero_add]
      rw [List.map_congr_left hcg]
      exact map_keySum_reconstruct rest hnd2

/-- When the entity labels of the frame are pairwise distinct, grouping is a
permutation: each label's group is its own single row. -/
theorem entityShares_perm_of_nodup (rows : List (String × ℚ))
    (hnd : (rows.map (fun p => p.1)).Nodup) : (entityShares rows).Perm rows := by
  unfold entityShares groupKeys
  rw [List.dedup_eq_self.2 hnd]
  exact ((List.perm_insertionSort _ _).map _).trans
    (by rw [map_keySum_reconstruct rows hnd])

theorem sorted_snd_sortByShareDesc (l : List (String × ℚ)) :
    List.Sorted (fun a b : ℚ => b ≤ a) ((sortByShareDesc l).map (fun p => p.2)) :=
  List.Pairwise.map _ (fun _ _ h => h)
    (List.sorted_insertionSort (fun p q : String × ℚ => q.2 ≤ p.2) l)

/-- Two frames that are permutations of each other have the same descending
share column (the entity labels attached to tied shares may differ, but the
share values coincide position by position). -/
theorem map_snd_sort_eq_of_perm {A B : List (String × ℚ)} (h : A.Perm B) :
    (sortByShareDesc A).map (fun p => p.2) = (sortByShareDesc B).map (fun p => p.2) :=
  List.eq_of_perm_of_sorted
    (((List.perm_insertionSort _ A).map _).trans
      ((h.map _).trans (((List.perm_insertionSort _ B).map _).symm)))
    (sorted_snd_sortByShareDesc A) (sorted_snd_sortByShareDesc B)

theorem sharesDesc_eq_of_nodup (rows : List (String × ℚ))
    (hnd : (rows.map (fun p => p.1)).Nodup) :
    sharesDesc rows = (sortByShareDesc rows).map (fun p => p.2) :=
  map_snd_sort_eq_of_perm (entityShares_perm_of_nodup rows hnd)

/-- Whenever no non-empty prefix of the share list sums to exactly the
threshold, the reach-or-exceed loop and the strictly-exceed loop agree. -/
theorem loops_agree (t : ℚ) :
    ∀ (ss : List ℚ) (c : ℚ), (∀ j, j < ss.length → c + (ss.take (j+1)).sum ≠ t) →
    nakaLoop t ss c = strictLoop t ss c
  | [], _, _ => rfl
  | s :: rest, c, h => by
    have h0 : c + s ≠ t := by
      have := h 0 (by simp)
      simpa using this
    by_cases h1 : t ≤ c + s
    · have hlt : t < c + s := lt_of_le_of_ne h1 (Ne.symm h0)
      simp [nakaLoop, strictLoop, h1, hlt]
    · have h2 : ¬ t < c + s := fun hlt => h1 (le_of_lt hlt)
      simp only [nakaLoop, strictLoop, if_neg h1, if_neg h2]
      congr 1
      apply loops_agree t rest (c + s)
      intro j hj
      have := h (j + 1) (by simpa using Nat.succ_lt_succ hj)
      rw [List.take_succ_cons, List.sum_cons, ← add_assoc] at this
      exact this

/-- C2 (amended theorem): `compute_nakamoto_coefficient` uses
reach-or-exceed while the inline loops of `generate_text_report` and
`text_visualize_shares` use strictly-exceed; the three agree on every
distribution whose entity labels are distinct, which fits in the top-15
truncation of `text_visualize_shares`, and whose descending prefix sums
never hit the 0.5 threshold exactly. -/
theorem coefficient_agrees_with_report_loops
    (rows : List (String × ℚ))
    (hnd : (rows.map (fun p => p.1)).Nodup)
    (hlen : rows.length ≤ 15)
    (hnb : ∀ j, j < rows.length →
      (((sortByShareDesc rows).map (fun p => p.2)).take (j+1)).sum ≠ mkRat 1 2) :
    compute_nakamoto_coefficient rows (mkRat 1 2) = generate_text_report_nakamoto rows ∧
    compute_nakamoto_coefficient rows (mkRat 1 2) = text_visualize_shares_nakamoto rows := by
  have hlen2 : (sortByShareDesc rows).length = rows.length :=
    (List.perm_insertionSort _ _).length_eq
  have htake15 : (sortByShareDesc rows).take 15 = sortByShareDesc rows :=
    List.take_of_length_le (by omega)
  have htake100k : (sortByShareDesc rows).take 100000 = sortByShareDesc rows :=
    List.take_of_length_le (by omega)
  have hs : sharesDesc rows = (sortByShareDesc rows).map (fun p => p.2) :=
    sharesDesc_eq_of_nodup rows hnd
  have hcond : ∀ j, j < ((sortByShareDesc rows).map (fun p => p.2)).length →
      (0 : ℚ) + (((sortByShareDesc rows).map (fun p => p.2)).take (j+1)).sum ≠ mkRat 1 2 := by
    intro j hj
    rw [zero_add]
    apply hnb
    rw [List.length_map, hlen2] at hj
    exact hj
  have hloops := loops_agree (mkRat 1 2) ((sortByShareDesc rows).map (fun p => p.2)) 0 hcond
  constructor
  · unfold compute_nakamoto_coefficient generate_text_report_nakamoto
    rw [htake100k, hs, hloops]
  · unfold compute_nakamoto_coefficient text_visualize_shares_nakamoto
    rw [htake15, hs, hloops]

unseal Rat.add in
/-- C2 (witness): the amended agreement theorem applied at the distribution
`[(A, 3/5), (B, 2/5)]`, whose prefix sums 3/5 and 1 avoid the boundary. -/
theorem coefficient_agrees_with_report_loops_witness :
    ((([("A", mkRat 3 5), ("B", mkRat 2 5)] : List (String × ℚ)).map (fun p => p.1)).Nodup) ∧
    (([("A", mkRat 3 5), ("B", mkRat 2 5)] : List (String × ℚ)).length ≤ 15) ∧
    (∀ j, j < ([("A", mkRat 3 5), ("B", mkRat 2 5)] : List (String × ℚ)).length →
      (((sortByShareDesc [("A", mkRat 3 5), ("B", mkRat 2 5)]).map (fun p => p.2)).take (j+1)).sum
        ≠ mkRat 1 2) ∧
    (compute_nakamoto_coefficient [("A", mkRat 3 5), ("B", mkRat 2 5)] (mkRat 1 2)
        = generate_text_report_nakamoto [("A", mkRat 3 5), ("B", mkRat 2 5)] ∧
      compute_nakamoto_coefficient [("A", mkRat 3 5), ("B", mkRat 2 5)] (mkRat 1 2)
        = text_visualize_shares_nakamoto [("A", mkRat 3 5), ("B", mkRat 2 5)]) :=
  ⟨by decide, by decide, by decide,
    coefficient_agrees_with_report_loops _ (by decide) (by decide) (by decide)⟩

/-! ## Model of `process_organizations` (src/compute_nakamoto.py lines 69-120) -/

/-- One row of the authors frame as consumed by `process_organizations`:
the `EIP` number, the `Organizations` cell (`none` models a missing/NaN
cell) and the `Author Name` cell. -/
structure AuthorRow where
  eip : ℕ
  organizations : Option String
  authorName : String
deriving DecidableEq

/-- Split a char list at every `';'` (Python `str.split(';')`, which keeps
empty fragments; they are dropped by the strip-filter right after). -/
def splitSemiAux : List Char → List Char → List (List Char)
  | [], acc => [acc.reverse]
  | c :: rest, acc =>
    if c = ';' then acc.reverse :: splitSemiAux rest [] else splitSemiAux rest (c :: acc)

/-- `orgs_str = str(row['Organizations']) if pd.notna(...) else ''` followed
by `[org.strip() for org in orgs_str.split(';') if org.strip()]`. -/
def splitOrgs (cell : Option String) : List String :=
  let s := match cell with | none => "" | some s => s
  ((splitSemiAux s.data []).map (fun t => String.mk (pyStripL t))).filter (fun t => decide (t ≠ ""))

/-- One iteration of the loop in lines 85-101: ensure the row's EIP has an
entry, then add the row's organisations to it — or, when the row has no
organisation, the row's literal author name. -/
def addRow (l : List (ℕ × List String)) (r : AuthorRow) : List (ℕ × List String) :=
  (if l.any (fun p => decide (p.1 = r.eip)) then l else l ++ [(r.eip, [])]).map
    (fun p => if p.1 = r.eip then
      (p.1, if splitOrgs r.organizations = [] then pyAdd p.2 r.authorName
        else (splitOrgs r.organizations).foldl pyAdd p.2) else p)

/-- The dict `eip_orgs`: an insertion-ordered association list from each
EIP to its set of attributed organisations (or fallback author names). -/
def eipOrgSets (rows : List AuthorRow) : List (ℕ × List String) :=
  rows.foldl addRow []

/-- `eip_org_pairs` (lines 104-107). -/
def eipOrgPairs (rows : List AuthorRow) : List (ℕ × String) :=
  (eipOrgSets rows).bind (fun p => p.2.map (fun o => (p.1, o)))

/-- `groupby('Organization')['EIP'].nunique()` evaluated at one
organisation: the number of distinct EIPs among the pairs carrying it. -/
def eipCount (rows : List AuthorRow) (o : String) : ℕ :=
  ((((eipOrgPairs rows).filter (fun q => decide (q.2 = o))).map (fun q => q.1)).dedup).length

/-- The distinct organisations of the pair list, in the ascending order
`groupby` emits. -/
def orgKeys (rows : List AuthorRow) : List String :=
  List.insertionSort (fun a b => strLeB a b = true) (((eipOrgPairs rows).map (fun q => q.2)).dedup)

/-- `total_eips = eips_per_org['EIP_Count'].sum()` (line 117). -/
def totalEips (rows : List AuthorRow) : ℕ :=
  ((orgKeys rows).map (fun o => eipCount rows o)).sum

/-- The frame returned by `process_organizations`: per organisation its
distinct-EIP count and its share `EIP_Count / total_eips`. -/
def process_organizations (rows : List AuthorRow) : List (String × ℕ × ℚ) :=
  (orgKeys rows).map (fun o =>
    (o, eipCount rows o, (eipCount rows o : ℚ) / (totalEips rows : ℚ)))

/-- Association-list access helper: all attributions recorded under key `e`
(the dict keys are pairwise distinct, so at most one entry contributes). -/
def attribOf : List (ℕ × List String) → ℕ → List String
  | [], _ => []
  | p :: t, e => if p.1 = e then p.2 ++ attribOf t e else attribOf t e

/-- The attributions recorded for one EIP (the set `eip_orgs[e]`). -/
def groupAttrib (rows : List AuthorRow) (e : ℕ) : List String :=
  attribOf (eipOrgSets rows) e

/-! ### Set-emulation lemmas -/

theorem mem_pyAdd (l : List String) (x y : String) :
    y ∈ pyAdd l x ↔ y ∈ l ∨ y = x := by
  unfold pyAdd
  by_cases h : x ∈ l
  · simp only [if_pos h]
    constructor
    · exact Or.inl
    · rintro (hy | rfl)
      · exact hy
      · exact h
  · simp [if_neg h]

theorem nodup_pyAdd (l : List String) (x : String) (h : l.Nodup) : (pyAdd l x).Nodup := by
  unfold pyAdd
  by_cases hx : x ∈ l
  · simpa [hx]
  · simpa [hx, List.nodup_append, List.disjoint_singleton] using h

theorem mem_foldl_pyAdd (y : String) :
    ∀ (os : List String) (l : List String), y ∈ os.foldl pyAdd l ↔ y ∈ l ∨ y ∈ os
  | [], l => by simp
  | o :: os, l => by
    rw [List.foldl_cons, mem_foldl_pyAdd y os (pyAdd l o), mem_pyAdd]
    simp only [List.mem_cons]
    tauto

theorem nodup_foldl_pyAdd :
    ∀ (os : List String) (l : List String), l.Nodup → (os.foldl pyAdd l).Nodup
  | [], _, h => h
  | o :: os, l, h => nodup_foldl_pyAdd os (pyAdd l o) (nodup_pyAdd l o h)

/-! ### Invariants of the `eip_orgs` dict -/

theorem addRow_keys_aux (l : List (ℕ × List String)) (r : AuthorRow) :
    (l.map (fun p => if p.1 = r.eip then
        (p.1, if splitOrgs r.organizations = [] then pyAdd p.2 r.authorName
          else (splitOrgs r.organizations).foldl pyAdd p.2) else p)).map (fun p => p.1)
      = l.map (fun p => p.1) := by
  rw [List.map_map]
  apply List.map_congr_left
  intro p _
  by_cases hp : p.1 = r.eip <;> simp [hp]

theorem addRow_inv (l : List (ℕ × List String)) (r : AuthorRow)
    (h1 : (l.map (fun p => p.1)).Nodup) (h2 : ∀ p ∈ l, p.2.Nodup) :
    ((addRow l r).map (fun p => p.1)).Nodup ∧ (∀ p ∈ addRow l r, p.2.Nodup) := by
  unfold addRow
  constructor
  · by_cases hany : l.any (fun p => decide (p.1 = r.eip))
    · rw [if_pos hany, addRow_keys_aux l r]
      exact h1
    · have hnotin : r.eip ∉ l.map (fun p => p.1) := by
        intro hmem
        obtain ⟨p, hp, hpe⟩ := List.mem_map.1 hmem
        exact hany (List.any_eq_true.2 ⟨p, hp, by simp [hpe]⟩)
      rw [if_neg hany, addRow_keys_aux (l ++ [(r.eip, [])]) r, List.map_append]
      simp only [List.map_cons, List.map_nil]
      rw [List.nodup_append]
      refine ⟨h1, List.nodup_singleton _, ?_⟩
      intro a ha hb
      obtain rfl : a = r.eip := by simpa using hb
      exact hnotin ha
  · intro p hp
    obtain ⟨q, hq, rfl⟩ := List.mem_map.1 hp
    have hqn : q.2.Nodup := by
      by_cases hany : l.any (fun p => decide (p.1 = r.eip))
      · exact h2 q (by simpa [hany] using hq)
      · rw [if_neg hany] at hq
        rcases List.mem_append.1 hq with hql | hqnew
        · exact h2 q hql
        · have : q = (r.eip, []) := by simpa using hqnew
          rw [this]
          exact List.nodup_nil
    by_cases hqe : q.1 = r.eip
    · simp only [if_pos hqe]
      by_cases ho : splitOrgs r.organizations = []
      · simpa [ho] using nodup_pyAdd q.2 r.authorName hqn
      · simpa [ho] using nodup_foldl_pyAdd (splitOrgs r.organizations) q.2 hqn
    · simpa [hqe] using hqn

theorem foldl_addRow_inv :
    ∀ (rows : List AuthorRow) (l : List (ℕ × List String)),
    (l.map (fun p => p.1)).Nodup → (∀ p ∈ l, p.2.Nodup) →
    ((rows.foldl addRow l).map (fun p => p.1)).Nodup ∧
      (∀ p ∈ rows.foldl addRow l, p.2.Nodup)
  | [], _, h1, h2 => ⟨h1, h2⟩
  | r :: rest, l, h1, h2 => by
    rw [List.foldl_cons]
    obtain ⟨g1, g2⟩ := addRow_inv l r h1 h2
    exact foldl_addRow_inv rest (addRow l r) g1 g2

theorem eipOrgSets_keys_nodup (rows : List AuthorRow) :
    ((eipOrgSets rows).map (fun p => p.1)).Nodup :=
  (foldl_addRow_inv rows [] List.nodup_nil (by simp)).1

theorem eipOrgSets_values_nodup (rows : List AuthorRow) :
    ∀ p ∈ eipOrgSets rows, p.2.Nodup :=
  (foldl_addRow_inv rows [] List.nodup_nil (by simp)).2

theorem nodup_bind_pairs :
    ∀ l : List (ℕ × List String), (l.map (fun p => p.1)).Nodup →
    (∀ p ∈ l, p.2.Nodup) →
    (l.bind (fun p => p.2.map (fun o => (p.1, o)))).Nodup
  | [], _, _ => List.nodup_nil
  | p :: t, h1, h2 => by
    have hsplit : (p :: t).bind (fun p => p.2.map (fun o => (p.1, o)))
        = p.2.map (fun o => (p.1, o)) ++ t.bind (fun p => p.2.map (fun o => (p.1, o))) := rfl
    rw [hsplit, List.nodup_append]
    obtain ⟨hp1, ht1⟩ := List.nodup_cons.1 h1
    refine ⟨?_, ?_, ?_⟩
    · exact (h2 p (List.mem_cons_self p t)).map
        (fun a b hab => by simpa using hab)
    · exact nodup_bind_pairs t ht1 (fun q hq => h2 q (List.mem_cons_of_mem p hq))
    · intro x hx hxt
      obtain ⟨o, _, rfl⟩ := List.mem_map.1 hx
      obtain ⟨q, hq, hqx⟩ := List.mem_bind.1 hxt
      obtain ⟨o2, _, ho2⟩ := List.mem_map.1 hqx
      apply hp1
      have hq1 : q.1 = p.1 := (Prod.ext_iff.1 ho2).1
      show p.1 ∈ List.map (fun p => p.1) t
      rw [← hq1]
      exact List.mem_map.2 ⟨q, hq, rfl⟩

theorem eipOrgPairs_nodup (rows : List AuthorRow) : (eipOrgPairs rows).Nodup :=
  nodup_bind_pairs (eipOrgSets rows) (eipOrgSets_keys_nodup rows)
    (eipOrgSets_values_nodup rows)

theorem length_filter_eq_le_one {α : Type} [DecidableEq α] :
    ∀ l : List α, l.Nodup → ∀ x, (l.filter (fun q => decide (q = x))).length ≤ 1
  | [], _, _ => by simp
  | a :: t, h, x => by
    obtain ⟨ha, ht⟩ := List.nodup_cons.1 h
    by_cases hax : a = x
    · subst hax
      have hnil : t.filter (fun q => decide (q = a)) = [] := by
        rw [List.filter_eq_nil_iff]
        intro q hq hqa
        exact ha ((of_decide_eq_true hqa) ▸ hq)
      simp [List.filter_cons, hnil]
    · simp only [List.filter_cons, decide_eq_true_eq, if_neg hax]
      exact length_filter_eq_le_one t ht x

/-- C3 (theorem): an organisation attributed to one EIP through several of
that EIP's authors contributes exactly one `(EIP, organisation)` pair —
the pair list never repeats a pair — and on the spec's example (one group
whose two authors resolve to `{Ethereum}` and `{Ethereum, Geth}`) both
"Ethereum" and "Geth" receive exactly one unit of count. -/
theorem organization_counted_once_per_eip :
    (∀ (rows : List AuthorRow) (e : ℕ) (o : String),
      ((eipOrgPairs rows).filter (fun q => decide (q = (e, o)))).length ≤ 1) ∧
    eipCount [⟨7, some "Ethereum", "A"⟩, ⟨7, some "Ethereum;Geth", "B"⟩] "Ethereum" = 1 ∧
    eipCount [⟨7, some "Ethereum", "A"⟩, ⟨7, some "Ethereum;Geth", "B"⟩] "Geth" = 1 ∧
    eipOrgPairs [⟨7, some "Ethereum", "A"⟩, ⟨7, some "Ethereum;Geth", "B"⟩]
      = [(7, "Ethereum"), (7, "Geth")] := by
  refine ⟨?_, by decide, by decide, by decide⟩
  intro rows e o
  exact length_filter_eq_le_one (eipOrgPairs rows) (eipOrgPairs_nodup rows) (e, o)

/-! ### Where each attribution comes from -/

theorem attribOf_append (e : ℕ) :
    ∀ A B : List (ℕ × List String), attribOf (A ++ B) e = attribOf A e ++ attribOf B e
  | [], _ => rfl
  | p :: A, B => by
    by_cases hp : p.1 = e <;>
      simp [attribOf, hp, attribOf_append e A B]

theorem mem_newSet (r : AuthorRow) (s : List String) (o : String) :
    (o ∈ (if splitOrgs r.organizations = [] then pyAdd s r.authorName
        else (splitOrgs r.organizations).foldl pyAdd s)) ↔
    (o ∈ s ∨ (o ∈ splitOrgs r.organizations ∨
      (splitOrgs r.organizations = [] ∧ o = r.authorName))) := by
  by_cases h : splitOrgs r.organizations = []
  · rw [if_pos h, mem_pyAdd]
    simp [h]
  · rw [if_neg h, mem_foldl_pyAdd]
    simp [h]

theorem attribOf_cons (a : ℕ) (s : List String) (t : List (ℕ × List String)) (e : ℕ) :
    attribOf ((a, s) :: t) e = if a = e then s ++ attribOf t e else attribOf t e := rfl

theorem attribOf_cons2 (q : ℕ × List String) (t : List (ℕ × List String)) (e : ℕ) :
    attribOf (q :: t) e = if q.1 = e then q.2 ++ attribOf t e else attribOf t e := rfl

theorem exists_key_cons_of_ne {p : ℕ × List String} {t : List (ℕ × List String)} {a : ℕ}
    (hp : ¬ p.1 = a) : (∃ q ∈ p :: t, q.1 = a) ↔ (∃ q ∈ t, q.1 = a) := by
  simp only [List.mem_cons]
  constructor
  · rintro ⟨q, hq | hq, hqe⟩
    · exact absurd (hq ▸ hqe) hp
    · exact ⟨q, hq, hqe⟩
  · rintro ⟨q, hq, hqe⟩
    exact ⟨q, Or.inr hq, hqe⟩

theorem mem_attribOf_map (r : AuthorRow) (e : ℕ) (o : String) :
    ∀ l : List (ℕ × List String),
    (o ∈ attribOf (l.map (fun p => if p.1 = r.eip then
        (p.1, if splitOrgs r.organizations = [] then pyAdd p.2 r.authorName
          else (splitOrgs r.organizations).foldl pyAdd p.2) else p)) e) ↔
    (o ∈ attribOf l e ∨ (e = r.eip ∧ (∃ p ∈ l, p.1 = r.eip) ∧
      (o ∈ splitOrgs r.organizations ∨
        (splitOrgs r.organizations = [] ∧ o = r.authorName))))
  | [] => by simp [attribOf]
  | p :: t => by
    have ih := mem_attribOf_map r e o t
    rw [List.map_cons]
    by_cases hp : p.1 = r.eip
    · rw [if_pos hp, attribOf_cons, attribOf_cons2]
      by_cases hpe : p.1 = e
      · rw [if_pos hpe, if_pos hpe, List.mem_append, List.mem_append, mem_newSet, ih]
        have he : e = r.eip := by rw [← hpe, hp]
        have hex : ∃ q ∈ p :: t, q.1 = r.eip := ⟨p, List.mem_cons_self p t, hp⟩
        tauto
      · rw [if_neg hpe, if_neg hpe, ih]
        have hne : ¬ e = r.eip := fun h => hpe (by rw [hp, ← h])
        tauto
    · rw [if_neg hp, attribOf_cons2, attribOf_cons2]
      by_cases hpe : p.1 = e
      · rw [if_pos hpe, if_pos hpe, List.mem_append, List.mem_append, ih,
          exists_key_cons_of_ne hp]
        tauto
      · rw [if_neg hpe, if_neg hpe, ih, exists_key_cons_of_ne hp]

theorem mem_attribOf_addRow (l : List (ℕ × List String)) (r : AuthorRow) (e : ℕ) (o : String) :
    o ∈ attribOf (addRow l r) e ↔
      (o ∈ attribOf l e ∨ (e = r.eip ∧
        (o ∈ splitOrgs r.organizations ∨
          (splitOrgs r.organizations = [] ∧ o = r.authorName)))) := by
  unfold addRow
  by_cases hany : l.any (fun p => decide (p.1 = r.eip))
  · rw [if_pos hany, mem_attribOf_map]
    have hex : ∃ p ∈ l, p.1 = r.eip := by
      obtain ⟨p, hp, hpe⟩ := List.any_eq_true.1 hany
      exact ⟨p, hp, of_decide_eq_true hpe⟩
    tauto
  · rw [if_neg hany, mem_attribOf_map]
    have happ : attribOf (l ++ [(r.eip, [])]) e = attribOf l e := by
      rw [attribOf_append]
      by_cases h : r.eip = e <;> simp [attribOf, h]
    have hex : ∃ p ∈ l ++ [(r.eip, [])], p.1 = r.eip := ⟨(r.eip, []), by simp, rfl⟩
    rw [happ]
    tauto

theorem mem_foldl_attrib (e : ℕ) (o : String) :
    ∀ (rows : List AuthorRow) (l : List (ℕ × List String)),
    o ∈ attribOf (rows.foldl addRow l) e ↔
      (o ∈ attribOf l e ∨ ∃ r ∈ rows, r.eip = e ∧
        (o ∈ splitOrgs r.organizations ∨
          (splitOrgs r.organizations = [] ∧ o = r.authorName)))
  | [], l => by simp
  | r :: rest, l => by
    rw [List.foldl_cons, mem_foldl_attrib e o rest (addRow l r), mem_attribOf_addRow]
    simp only [List.mem_cons]
    constructor
    · rintro ((h | ⟨he, hc⟩) | ⟨q, hq, hqe, hc⟩)
      · exact Or.inl h
      · exact Or.inr ⟨r, Or.inl rfl, he.symm, hc⟩
      · exact Or.inr ⟨q, Or.inr hq, hqe, hc⟩
    · rintro (h | ⟨q, hq | hq, hqe, hc⟩)
      · exact Or.inl (Or.inl h)
      · subst hq
        exact Or.inl (Or.inr ⟨hqe.symm, hc⟩)
      · exact Or.inr ⟨q, hq, hqe, hc⟩

/-- C6 (counterexample): in the group of EIP 1 the first row resolves to the
non-empty organisation set `{Ethereum}`, yet the bare author name "Bob" of
the organisation-less second row still appears among the group's
attributions, refuting the claim that a bare author name appears only when
every identity of the group resolves to the empty set. -/
theorem author_fallback_not_per_group :
    splitOrgs (some "Ethereum") = ["Ethereum"] ∧
    groupAttrib [⟨1, some "Ethereum", "Alice"⟩, ⟨1, none, "Bob"⟩] 1 = ["Ethereum", "Bob"] ∧
    "Bob" ∈ groupAttrib [⟨1, some "Ethereum", "Alice"⟩, ⟨1, none, "Bob"⟩] 1 := by
  decide

/-- C6 (amended theorem): the author-name fallback is applied per row, not
per group: an attribution `o` is recorded for EIP `e` precisely when some
row of that EIP either lists `o` among its (semicolon-split, stripped,
non-empty) organisations, or has an empty organisation list and carries
`o` as its literal author name.  A bare author name can therefore coexist
with resolved organisations inside one group. -/
theorem groupAttrib_membership (rows : List AuthorRow) (e : ℕ) (o : String) :
    o ∈ groupAttrib rows e ↔ ∃ r ∈ rows, r.eip = e ∧
      (o ∈ splitOrgs r.organizations ∨
        (splitOrgs r.organizations = [] ∧ o = r.authorName)) := by
  rw [groupAttrib, eipOrgSets, mem_foldl_attrib]
  simp [attribOf]

/-! ### The shares sum to one -/

theorem list_sum_div (T : ℚ) :
    ∀ L : List ℚ, (L.map (fun x => x / T)).sum = L.sum / T
  | [] => by simp
  | x :: L => by simp [list_sum_div T L, add_div]

theorem sum_filter_partition (D : List String) (hnd : D.Nodup) :
    ∀ ps : List (ℕ × String), (∀ q ∈ ps, q.2 ∈ D) →
    (D.map (fun o => (ps.filter (fun q => decide (q.2 = o))).length)).sum = ps.length
  | [], _ => by simp
  | q :: ps, hc => by
    have hpt : ∀ o ∈ D, ((q :: ps).filter (fun x => decide (x.2 = o))).length
        = (if q.2 = o then 1 else 0) + (ps.filter (fun x => decide (x.2 = o))).length := by
      intro o _
      by_cases h : q.2 = o <;> simp [List.filter_cons, h, Nat.add_comm]
    rw [List.map_congr_left hpt, sum_map_add_dist,
      sum_map_ite_of_mem q.2 1 D hnd (hc q (List.mem_cons_self q ps)),
      sum_filter_partition D hnd ps (fun x hx => hc x (List.mem_cons_of_mem q hx))]
    rw [List.length_cons]
    omega

/-- With a duplicate-free pair list, `nunique` over the EIPs carrying an
organisation is just the number of pairs carrying it. -/
theorem eipCount_eq_filter_length (rows : List AuthorRow) (o : String) :
    eipCount rows o = ((eipOrgPairs rows).filter (fun q => decide (q.2 = o))).length := by
  unfold eipCount
  have hnodup : ((eipOrgPairs rows).filter (fun q => decide (q.2 = o))).Nodup :=
    (eipOrgPairs_nodup rows).filter _
  have hmapnd : (((eipOrgPairs rows).filter (fun q => decide (q.2 = o))).map
      (fun q => q.1)).Nodup := by
    apply List.Nodup.map_on ?_ hnodup
    intro x hx y hy hxy
    have hx2 := List.of_mem_filter hx
    have hy2 := List.of_mem_filter hy
    exact Prod.ext hxy ((of_decide_eq_true hx2).trans (of_decide_eq_true hy2).symm)
  rw [List.dedup_eq_self.2 hmapnd, List.length_map]

/-- C7 (theorem): for every input batch producing at least one
`(EIP, organisation)` pair, the Share column of `process_organizations`
sums to exactly 1 — in particular within the 1e-6 tolerance — because the
divisor `total_eips` is exactly the total number of
`(EIP, organisation)` pairs. -/
theorem process_organizations_share_sum (rows : List AuthorRow)
    (hne : eipOrgPairs rows ≠ []) :
    ((process_organizations rows).map (fun q => q.2.2)).sum = 1 ∧
    totalEips rows = (eipOrgPairs rows).length := by
  have hcover : ∀ q ∈ eipOrgPairs rows,
      q.2 ∈ ((eipOrgPairs rows).map (fun q => q.2)).dedup :=
    fun q hq => List.mem_dedup.2 (List.mem_map.2 ⟨q, hq, rfl⟩)
  have htot : totalEips rows = (eipOrgPairs rows).length := by
    unfold totalEips
    have hpt : ∀ o ∈ orgKeys rows, eipCount rows o
        = ((eipOrgPairs rows).filter (fun q => decide (q.2 = o))).length :=
      fun o _ => eipCount_eq_filter_length rows o
    rw [List.map_congr_left hpt]
    unfold orgKeys
    rw [((List.perm_insertionSort (fun a b : String => strLeB a b = true)
      (((eipOrgPairs rows).map (fun q => q.2)).dedup)).map
      (fun o => ((eipOrgPairs rows).filter (fun q => decide (q.2 = o))).length)).sum_eq]
    exact sum_filter_partition _ (List.nodup_dedup _) (eipOrgPairs rows) hcover
  refine ⟨?_, htot⟩
  have hT : (totalEips rows : ℚ) ≠ 0 := by
    rw [htot]
    exact_mod_cast Nat.cast_ne_zero.2 (fun h => hne (List.length_eq_zero.1 h))
  unfold process_organizations
  rw [List.map_map]
  have hshape : ((fun q : String × ℕ × ℚ => q.2.2) ∘ (fun o =>
      (o, eipCount rows o, (eipCount rows o : ℚ) / (totalEips rows : ℚ))))
      = fun o => (eipCount rows o : ℚ) / (totalEips rows : ℚ) := rfl
  rw [hshape]
  have hdiv : ((orgKeys rows).map
      (fun o => (eipCount rows o : ℚ) / (totalEips rows : ℚ))).sum
      = ((orgKeys rows).map (fun o => (eipCount rows o : ℚ))).sum / (totalEips rows : ℚ) := by
    have := list_sum_div (totalEips rows : ℚ)
      ((orgKeys rows).map (fun o => (eipCount rows o : ℚ)))
    rw [List.map_map] at this
    exact this
  rw [hdiv]
  have hcast : ((orgKeys rows).map (fun o => (eipCount rows o : ℚ))).sum
      = ((totalEips rows : ℕ) : ℚ) := by
    unfold totalEips
    rw [Nat.cast_list_sum, List.map_map]
    rfl
  rw [hcast, div_self hT]

unseal Rat.add in
/-- C7 (witness): the share-sum theorem applied at a concrete batch of two
EIPs and three attributed organisations. -/
theorem process_organizations_share_sum_witness :
    eipOrgPairs [⟨1, some "Ethereum;Geth", "A"⟩, ⟨2, some "Consensys", "B"⟩] ≠ [] ∧
    ((process_organizations [⟨1, some "Ethereum;Geth", "A"⟩,
        ⟨2, some "Consensys", "B"⟩]).map (fun q => q.2.2)).sum = 1 ∧
    totalEips [⟨1, some "Ethereum;Geth", "A"⟩, ⟨2, some "Consensys", "B"⟩]
      = (eipOrgPairs [⟨1, some "Ethereum;Geth", "A"⟩, ⟨2, some "Consensys", "B"⟩]).length :=
  ⟨by decide,
    (process_organizations_share_sum _ (by decide)).1,
    (process_organizations_share_sum _ (by decide)).2⟩

/-! ## Model of `get_organizations` (src/parse_eips.py lines 147-175) -/

/-- An EIP author as produced by `parse_eip_file`. -/
structure EipAuthor where
  name : String
  email : Option String
  github : Option String
  organization : Option String
deriving DecidableEq

/-- Python dict lookup on a key-value list built by repeated insertion
(a later binding of the same key overwrites an earlier one). -/
def dictFind (m : List (String × List String)) (k : String) : Option (List String) :=
  m.foldl (fun acc p => if p.1 = k then some p.2 else acc) none

/-- `load_organization_mapping`: lowercase every key of the mapping. -/
def load_organization_mapping (m : List (String × List String)) :
    List (String × List String) :=
  m.map (fun p => (pyLower p.1, p.2))

/-- `get_organizations(author, org_mapping)`: the name lookup and the
GitHub-handle lookup are both applied (`set.update` twice); the inline
parenthetical organisation is added only if the set is still empty; the
handle itself is added only if the set is empty after that. -/
def get_organizations (author : EipAuthor) (m : List (String × List String)) : List String :=
  let orgs1 := match dictFind m (pyLower author.name) with
    | some os => os.foldl pyAdd []
    | none => []
  let orgs2 := match author.github with
    | some g =>
      if g ≠ "" then
        match dictFind m (pyLower g) with
        | some os => os.foldl pyAdd orgs1
        | none => orgs1
      else orgs1
    | none => orgs1
  let orgs3 := match author.organization with
    | some o => if o ≠ "" ∧ orgs2 = [] then pyAdd orgs2 o else orgs2
    | none => orgs2
  match author.github with
  | some g => if g ≠ "" ∧ orgs3 = [] then pyAdd orgs3 g else orgs3
  | none => orgs3

/-- The resolution chain claimed by C4, written from the claim's own words
(the refinement target, deliberately not from the source): the first rule
yielding a non-empty set wins — name lookup, then handle lookup, then the
inline organisation, then the handle itself. -/
def claimResolve (author : EipAuthor) (m : List (String × List String)) : List String :=
  let nameSet := match dictFind m (pyLower author.name) with
    | some os => os.foldl pyAdd []
    | none => []
  let handleSet := match author.github with
    | some g =>
      if g ≠ "" then
        match dictFind m (pyLower g) with
        | some os => os.foldl pyAdd []
        | none => []
      else []
    | none => []
  let selfSet := match author.github with
    | some g => if g ≠ "" then [g] else []
    | none => []
  if nameSet ≠ [] then nameSet
  else if handleSet ≠ [] then handleSet
  else match author.organization with
    | some o => if o ≠ "" then [o] else selfSet
    | none => selfSet

/-- The resolution chain the source actually implements, stated as a
first-match chain over the *union* of the two lookups (the amended form of
C4's precedence). -/
def amendedResolve (author : EipAuthor) (m : List (String × List String)) : List String :=
  let nameSet := match dictFind m (pyLower author.name) with
    | some os => os.foldl pyAdd []
    | none => []
  let unionSet := match author.github with
    | some g =>
      if g ≠ "" then
        match dictFind m (pyLower g) with
        | some os => os.foldl pyAdd nameSet
        | none => nameSet
      else nameSet
    | none => nameSet
  if unionSet ≠ [] then unionSet
  else match author.organization with
    | some o =>
      if o ≠ "" then [o]
      else match author.github with
        | some g => if g ≠ "" then [g] else []
        | none => []
    | none => match author.github with
      | some g => if g ≠ "" then [g] else []
      | none => []

/-- C4 (counterexample): with the mapping `{Alice ↦ {OrgA}, al ↦ {OrgB}}`
and the author named "Alice" with handle "al", the name lookup is non-empty
yet the handle lookup still contributes: `get_organizations` returns
`{OrgA, OrgB}`, not the `{OrgA}` the claimed first-rule-wins precedence
would give. -/
theorem get_organizations_not_first_match :
    get_organizations ⟨"Alice", none, some "al", none⟩
        (load_organization_mapping [("Alice", ["OrgA"]), ("al", ["OrgB"])])
      = ["OrgA", "OrgB"] ∧
    claimResolve ⟨"Alice", none, some "al", none⟩
        (load_organization_mapping [("Alice", ["OrgA"]), ("al", ["OrgB"])])
      = ["OrgA"] ∧
    get_organizations ⟨"Alice", none, some "al", none⟩
        (load_organization_mapping [("Alice", ["OrgA"]), ("al", ["OrgB"])])
      ≠ claimResolve ⟨"Alice", none, some "al", none⟩
        (load_organization_mapping [("Alice", ["OrgA"]), ("al", ["OrgB"])]) := by
  decide

/-- C4 (amended theorem): `get_organizations` applies the name lookup and
the handle lookup additively (their union); the inline parenthetical
organisation is used only when that union is empty, and the handle
self-attribution only when the set is still empty after that. -/
theorem get_organizations_additive_precedence
    (author : EipAuthor) (m : List (String × List String)) :
    get_organizations author m = amendedResolve author m := by
  unfold get_organizations amendedResolve
  rcases author with ⟨name, email, github, organization⟩
  cases github with
  | none =>
    cases organization with
    | none =>
      by_cases h : (match dictFind m (pyLower name) with
        | some os => os.foldl pyAdd []
        | none => ([] : List String)) = [] <;> simp [h]
    | some o =>
      by_cases h : (match dictFind m (pyLower name) with
        | some os => os.foldl pyAdd []
        | none => ([] : List String)) = [] <;>
        by_cases ho : o = "" <;> simp [h, ho, pyAdd]
  | some g =>
    by_cases hg : g = ""
    · cases organization with
      | none =>
        by_cases h : (match dictFind m (pyLower name) with
          | some os => os.foldl pyAdd []
          | none => ([] : List String)) = [] <;> simp [h, hg]
      | some o =>
        by_cases h : (match dictFind m (pyLower name) with
          | some os => os.foldl pyAdd []
          | none => ([] : List String)) = [] <;>
          by_cases ho : o = "" <;> simp [h, hg, ho, pyAdd]
    · cases organization with
      | none =>
        by_cases h : (match dictFind m (pyLower g) with
          | some os => os.foldl pyAdd (match dictFind m (pyLower name) with
            | some os => os.foldl pyAdd []
            | none => ([] : List String))
          | none => (match dictFind m (pyLower name) with
            | some os => os.foldl pyAdd []
            | none => ([] : List String))) = [] <;> simp [h, hg, pyAdd]
      | some o =>
        by_cases h : (match dictFind m (pyLower g) with
          | some os => os.foldl pyAdd (match dictFind m (pyLower name) with
            | some os => os.foldl pyAdd []
            | none => ([] : List String))
          | none => (match dictFind m (pyLower name) with
            | some os => os.foldl pyAdd []
            | none => ([] : List String))) = [] <;>
          by_cases ho : o = "" <;> simp [h, hg, ho, pyAdd]

/-! ## Model of `process_organization` (scripts/update_org_mapping.py lines 14-52) -/

/-- `re.match(r'^EF[/:]|^EF\s', org, re.IGNORECASE)`: the string starts with
an EF token followed by '/', ':' or a whitespace character. -/
def efMatch : List Char → Bool
  | c1 :: c2 :: c3 :: _ =>
    (c1.toLower = 'e' && c2.toLower = 'f') && (c3 = '/' || c3 = ':' || isPySpace c3)
  | _ => false

/-- `re.sub(r'^EF[/:]\s*|^EF\s+', '', org, flags=re.IGNORECASE)`: remove the
EF prefix together with the whitespace run following it; a non-matching
string is returned unchanged. -/
def efSub (l : List Char) : List Char :=
  match l with
  | c1 :: c2 :: c3 :: rest =>
    if c1.toLower = 'e' && c2.toLower = 'f' then
      if c3 = '/' || c3 = ':' then rest.dropWhile isPySpace
      else if isPySpace c3 then rest.dropWhile isPySpace
      else l
    else l
  | _ => l

def startsWithL : List Char → List Char → Bool
  | _, [] => true
  | [], _ :: _ => false
  | a :: as, b :: bs => a = b && startsWithL as bs

def hasSubstr : List Char → List Char → Bool
  | [], pat => startsWithL [] pat
  | c :: t, pat => startsWithL (c :: t) pat || hasSubstr t pat

/-- `re.search(pat, s, re.IGNORECASE)` for a literal pattern: case-folded
substring containment. -/
def containsCI (s pat : String) : Bool :=
  hasSubstr (s.data.map Char.toLower) (pat.data.map Char.toLower)

/-- `re.search(r'^geth$|^EF[/:]\s*geth|^EF\s+geth', org, re.IGNORECASE)`:
all three alternatives are anchored at the start of the string. -/
def gethMatch (l : List Char) : Bool :=
  let low := l.map Char.toLower
  (low = "geth".data) ||
  (match low with
   | c1 :: c2 :: c3 :: rest =>
     (c1 = 'e' && c2 = 'f') &&
       (((c3 = '/' || c3 = ':') && startsWithL (rest.dropWhile isPySpace) "geth".data) ||
        (isPySpace c3 && startsWithL (rest.dropWhile isPySpace) "geth".data))
   | _ => false)

/-- Lines 18-31: the EF / bare-EF / generic branch building the initial
label set. -/
def efBlock (org : String) : List String :=
  if efMatch org.data then
    if String.mk (efSub org.data) ≠ "" ∧
        pyLower (String.mk (efSub org.data)) ∉ (["research", ""] : List String) then
      pyAdd (pyAdd [] "Ethereum") (String.mk (efSub org.data))
    else pyAdd [] "Ethereum"
  else if pyLower org = "ef" then pyAdd [] "Ethereum"
  else if org ≠ "" ∧ pyLower org ≠ "research" then pyAdd [] org
  else []

/-- Lines 33-40: the MetaMask / PegaSys / Pantheon consortium rule. -/
def consensysBlock (org : String) (orgs : List String) : List String :=
  if containsCI org "metamask" || containsCI org "pegasys" then
    let a := pyAdd orgs "Consensys"
    let b := if containsCI org "pegasys" then pyAdd a "PegaSys" else a
    if containsCI org "pantheon" then pyAdd b "Pantheon" else b
  else orgs

/-- Lines 42-45: the Solidity rule. -/
def solidityBlock (org : String) (orgs : List String) : List String :=
  if containsCI org "solidity" then pyAdd (pyAdd orgs "Ethereum") "Cantina" else orgs

/-- Lines 47-50: the Geth rule. -/
def gethBlock (org : String) (orgs : List String) : List String :=
  if gethMatch org.data then pyAdd (pyAdd orgs "Geth") "Ethereum" else orgs

/-- `process_organization(org)`: strip, apply the EF branch, then the three
always-applied additive rules. -/
def process_organization (org0 : String) : List String :=
  gethBlock (pyStrip org0) (solidityBlock (pyStrip org0)
    (consensysBlock (pyStrip org0) (efBlock (pyStrip org0))))

theorem mem_pyAdd_of_mem {l : List String} {o : String} (x : String) (h : o ∈ l) :
    o ∈ pyAdd l x := (mem_pyAdd l x o).2 (Or.inl h)

theorem mem_consensysBlock (org : String) (orgs : List String) (o : String) (h : o ∈ orgs) :
    o ∈ consensysBlock org orgs := by
  unfold consensysBlock
  split
  · split <;> split <;>
      repeat first
        | assumption
        | apply mem_pyAdd_of_mem
  · exact h

theorem mem_solidityBlock (org : String) (orgs : List String) (o : String) (h : o ∈ orgs) :
    o ∈ solidityBlock org orgs := by
  unfold solidityBlock
  split
  · exact mem_pyAdd_of_mem _ (mem_pyAdd_of_mem _ h)
  · exact h

theorem mem_gethBlock (org : String) (orgs : List String) (o : String) (h : o ∈ orgs) :
    o ∈ gethBlock org orgs := by
  unfold gethBlock
  split
  · exact mem_pyAdd_of_mem _ (mem_pyAdd_of_mem _ h)
  · exact h

/-- C5 (theorem): for every raw organisation string that (after stripping)
starts with an EF token followed by '/', ':' or whitespace,
`process_organization` emits the parent label "Ethereum", and additionally
emits the remainder after the prefix as its own label unless that
remainder is empty or case-folds to "research"; in particular
`process_organization "EF/Geth" = {Ethereum, Geth}` and
`process_organization "EF Research" = {Ethereum}`. -/
theorem process_organization_ef_rule (s : String)
    (hm : efMatch (pyStrip s).data = true) :
    "Ethereum" ∈ process_organization s ∧
    ((String.mk (efSub (pyStrip s).data) ≠ "" ∧
        pyLower (String.mk (efSub (pyStrip s).data)) ≠ "research") →
      String.mk (efSub (pyStrip s).data) ∈ process_organization s) ∧
    process_organization "EF/Geth" = ["Ethereum", "Geth"] ∧
    process_organization "EF Research" = ["Ethereum"] := by
  refine ⟨?_, ?_, by decide, by decide⟩
  · apply mem_gethBlock
    apply mem_solidityBlock
    apply mem_consensysBlock
    unfold efBlock
    rw [if_pos hm]
    split
    · exact mem_pyAdd_of_mem _ (by simp [pyAdd])
    · simp [pyAdd]
  · intro ⟨h1, h2⟩
    apply mem_gethBlock
    apply mem_solidityBlock
    apply mem_consensysBlock
    unfold efBlock
    rw [if_pos hm]
    have hcond : String.mk (efSub (pyStrip s).data) ≠ "" ∧
        pyLower (String.mk (efSub (pyStrip s).data)) ∉ (["research", ""] : List String) := by
      refine ⟨h1, ?_⟩
      intro hmem
      rcases List.mem_cons.1 hmem with hr | hr
      · exact h2 hr
      · have : pyLower (String.mk (efSub (pyStrip s).data)) = "" := by simpa using hr
        apply h1
        have hdata := congrArg String.data this
        simp only [pyLower] at hdata
        have : (String.mk (efSub (pyStrip s).data)).data = [] :=
          List.map_eq_nil.1 hdata
        cases hh : efSub (pyStrip s).data with
        | nil => simp [String.mk, hh] at this ⊢
        | cons c t => rw [hh] at this; simp at this
    rw [if_pos hcond]
    exact (mem_pyAdd _ _ _).2 (Or.inr rfl)

unseal Rat.add in
/-- C5 (witness): the EF-prefix rule applied at the concrete input
"EF/Geth". -/
theorem process_organization_ef_rule_witness :
    efMatch (pyStrip "EF/Geth").data = true ∧
    ("Ethereum" ∈ process_organization "EF/Geth" ∧
    ((String.mk (efSub (pyStrip "EF/Geth").data) ≠ "" ∧
        pyLower (String.mk (efSub (pyStrip "EF/Geth").data)) ≠ "research") →
      String.mk (efSub (pyStrip "EF/Geth").data) ∈ process_organization "EF/Geth") ∧
    process_organization "EF/Geth" = ["Ethereum", "Geth"] ∧
    process_organization "EF Research" = ["Ethereum"]) :=
  ⟨by decide, process_organization_ef_rule "EF/Geth" (by decide)⟩

/-! ## Model of `extract_meeting_attendees` (src/parse_core_devs.py lines 34-153)

The attendee extraction works by Python regular expressions.  The model
interprets the exact patterns of the source with a small backtracking
matcher whose priority order is the one Python's `re` uses: alternatives
left to right, greedy quantifiers longest first, lazy quantifiers shortest
first, the first complete match wins. -/

/-- Regular-expression syntax covering exactly the constructs the four
attendee patterns use: literal characters, character classes, sequencing,
ordered alternation, greedy/lazy option and star, positive lookahead,
capture groups and end of input (`\Z`). -/
inductive RE : Type where
  | chr : Char → RE
  | cls : (Char → Bool) → RE
  | eps : RE
  | seq : RE → RE → RE
  | alt : RE → RE → RE
  | opt : RE → Bool → RE
  | star : RE → Bool → RE
  | look : RE → RE
  | grp : ℕ → RE → RE
  | endS : RE

/-- Capture state: latest binding of each group index first. -/
def Groups : Type := List (ℕ × List Char)

def setGroup (g : Groups) (i : ℕ) (v : List Char) : Groups :=
  ((i, v) :: (g : List (ℕ × List Char)) : List (ℕ × List Char))

def getGroup (g : Groups) (i : ℕ) : Option (List Char) :=
  match (g : List (ℕ × List Char)).find? (fun p => p.1 == i) with
  | some p => some p.2
  | none => none

/-- Backtracking matcher.  `reMatch fuel re cs g k` attempts to match `re`
at the head of `cs`, handing every admissible remainder to the
continuation `k` in Python's backtracking priority order and returning the
first success.  The fuel only bounds star unrolling; a star iteration must
consume input (none of the interpreted patterns has a nullable quantified
body, exactly as in the source), so any fuel above the input length is
enough and the cutoff never fires on the inputs considered. -/
def reMatch : ℕ → RE → List Char → Groups →
    (List Char → Groups → Option (List Char × Groups)) → Option (List Char × Groups)
  | 0, _, _, _, _ => none
  | f + 1, re, cs, g, k =>
    match re with
    | .chr c =>
      match cs with
      | x :: rest => if x = c then k rest g else none
      | [] => none
    | .cls p =>
      match cs with
      | x :: rest => if p x then k rest g else none
      | [] => none
    | .eps => k cs g
    | .endS =>
      match cs with
      | [] => k cs g
      | _ :: _ => none
    | .seq a b => reMatch f a cs g (fun cs2 g2 => reMatch f b cs2 g2 k)
    | .alt a b =>
      match reMatch f a cs g k with
      | some r => some r
      | none => reMatch f b cs g k
    | .opt a greedy =>
      if greedy then
        match reMatch f a cs g k with
        | some r => some r
        | none => k cs g
      else
        match k cs g with
        | some r => some r
        | none => reMatch f a cs g k
    | .look a =>
      match reMatch f a cs g (fun cs2 g2 => some (cs2, g2)) with
      | some (_, g2) => k cs g2
      | none => none
    | .grp i a =>
      reMatch f a cs g (fun cs2 g2 =>
        k cs2 (setGroup g2 i (cs.take (cs.length - cs2.length))))
    | .star a greedy =>
      if greedy then
        match reMatch f a cs g (fun cs2 g2 =>
          if cs2.length < cs.length then reMatch f (.star a greedy) cs2 g2 k else none) with
        | some r => some r
        | none => k cs g
      else
        match k cs g with
        | some r => some r
        | none => reMatch f a cs g (fun cs2 g2 =>
            if cs2.length < cs.length then reMatch f (.star a greedy) cs2 g2 k else none)

/-- Match `re` anchored at the start of `cs`: the remainder after the match
and the captured groups.  The fuel bounds the depth of nested matcher
frames: star iterations each consume a character, so the chain of frames
is at most the pattern size per consumed character; the supplied fuel
strictly dominates that for every pattern interpreted here, so the cutoff
never fires. -/
def reMatchAt (re : RE) (cs : List Char) : Option (List Char × Groups) :=
  reMatch ((cs.length + 2) * 100) re cs ([] : List (ℕ × List Char)) (fun rest g => some (rest, g))

/-- `re.finditer` for a pattern with no `(?:^|\n)` lead: scan left to
right, non-overlapping, resuming at each match end (advancing one position
over a zero-width match, as Python does). -/
def finditerAux (re : RE) : ℕ → List Char → List Groups
  | 0, _ => []
  | fuel + 1, cs =>
    match reMatchAt re cs with
    | some (rest, g) =>
      if rest.length < cs.length then g :: finditerAux re fuel rest
      else match cs with
        | [] => [g]
        | _ :: t => g :: finditerAux re fuel t
    | none =>
      match cs with
      | [] => []
      | _ :: t => finditerAux re fuel t

def finditer (re : RE) (cs : List Char) : List Groups := finditerAux re (cs.length + 1) cs

/-- `re.finditer` for a pattern of the form `(?:^|\n)core`: at position 0
the zero-width `^` branch is tried first, then the `\n` branch; at later
positions only the `\n` branch can apply. -/
def finditerLeadAux (core : RE) : ℕ → Bool → List Char → List Groups
  | 0, _, _ => []
  | fuel + 1, atStart, cs =>
    match (if atStart then reMatchAt core cs else none) with
    | some (rest, g) =>
      if rest.length < cs.length then g :: finditerLeadAux core fuel false rest
      else match cs with
        | [] => [g]
        | _ :: t => g :: finditerLeadAux core fuel false t
    | none =>
      match reMatchAt (.seq (.chr '\n') core) cs with
      | some (rest, g) => g :: finditerLeadAux core fuel false rest
      | none =>
        match cs with
        | [] => []
        | _ :: t => finditerLeadAux core fuel false t

def finditerLead (core : RE) (cs : List Char) : List Groups :=
  finditerLeadAux core (cs.length + 1) true cs

/-- `re.search` for a `(?:^|\n)core` pattern: the leftmost match. -/
def searchLead (core : RE) (cs : List Char) : Option Groups :=
  (finditerLead core cs).head?

/-! ### The four attendee patterns, transcribed from the source -/

/-- A literal string. -/
def litStr (s : String) : RE := s.data.foldr (fun c acc => .seq (.chr c) acc) .eps

/-- `\s+` (greedy). -/
def wsPlus : RE := .seq (.cls isPySpace) (.star (.cls isPySpace) true)

/-- `\s*` (greedy). -/
def wsStar : RE := .star (.cls isPySpace) true

/-- `\n+?` (lazy). -/
def nlPlusLazy : RE := .seq (.chr '\n') (.star (.chr '\n') false)

/-- `#{1,3}` — one hash and up to two optional further hashes (the greedy
counted repetition, unfolded). -/
def hashes13 : RE := .seq (.chr '#') (.seq (.opt (.chr '#') true) (.opt (.chr '#') true))

/-- `#{1,3}\s+Attendees`. -/
def attendeesHeading : RE := .seq hashes13 (.seq wsPlus (litStr "Attendees"))

/-- `(?=\n#{1,3}|\n----|\n\n\n|\Z)` — the section terminator lookahead. -/
def sectionTermLook : RE :=
  .look (.alt (.seq (.chr '\n') hashes13)
    (.alt (litStr "\n----") (.alt (litStr "\n\n\n") .endS)))

/-- Pattern 1 without its `(?:^|\n)` lead:
`#{1,3}\s+Attendees\s*\n+?(.*?)(?=\n#{1,3}|\n----|\n\n\n|\Z)` (DOTALL). -/
def sectionCore : RE :=
  .seq attendeesHeading
    (.seq wsStar
      (.seq nlPlusLazy
        (.seq (.grp 1 (.star (.cls (fun _ => true)) false)) sectionTermLook)))

/-- First bullet alternative:
`\[([^\]]+?)(?:\s+)?\(([^)]+)\)?\]\([^)]+\)`. -/
def bulletAlt1 : RE :=
  .seq (.chr '[')
    (.seq (.grp 1 (.seq (.cls (fun c => c != ']')) (.star (.cls (fun c => c != ']')) false)))
      (.seq (.opt wsPlus true)
        (.seq (.chr '(')
          (.seq (.grp 2 (.seq (.cls (fun c => c != ')')) (.star (.cls (fun c => c != ')')) true)))
            (.seq (.opt (.chr ')') true)
              (.seq (.chr ']')
                (.seq (.chr '(')
                  (.seq (.seq (.cls (fun c => c != ')')) (.star (.cls (fun c => c != ')')) true))
                    (.chr ')')))))))))

/-- Second bullet alternative: `\[([^\]]+)\]\([^)]+\)`. -/
def bulletAlt2 : RE :=
  .seq (.chr '[')
    (.seq (.grp 3 (.seq (.cls (fun c => c != ']')) (.star (.cls (fun c => c != ']')) true)))
      (.seq (.chr ']')
        (.seq (.chr '(')
          (.seq (.seq (.cls (fun c => c != ')')) (.star (.cls (fun c => c != ')')) true))
            (.chr ')')))))

/-- Third bullet alternative: `([^\n]+)`. -/
def bulletAlt3 : RE :=
  .grp 4 (.seq (.cls (fun c => c != '\n')) (.star (.cls (fun c => c != '\n')) true))

/-- The bullet-item pattern:
`[-*]\s+(?:♦\s+)?(?:alt1|alt2|alt3)` (plain finditer, no lead). -/
def bulletCore : RE :=
  .seq (.cls (fun c => c = '-' || c = '*'))
    (.seq wsPlus
      (.seq (.opt (.seq (.chr '♦') wsPlus) true)
        (.alt bulletAlt1 (.alt bulletAlt2 bulletAlt3))))

/-- Pattern 2 without its `(?:^|\n)` lead:
`(?:Attendees|Participants):\s*(.*?)(?:\n\n|\n#{1,3}|\Z)` (DOTALL). -/
def labelCore : RE :=
  .seq (.alt (litStr "Attendees") (litStr "Participants"))
    (.seq (.chr ':')
      (.seq wsStar
        (.seq (.grp 1 (.star (.cls (fun _ => true)) false))
          (.alt (litStr "\n\n") (.alt (.seq (.chr '\n') hashes13) .endS)))))

/-- One fallback bullet line: `[-*]\s+[^\n]+\n?`. -/
def bulletLine : RE :=
  .seq (.cls (fun c => c = '-' || c = '*'))
    (.seq wsPlus
      (.seq (.seq (.cls (fun c => c != '\n')) (.star (.cls (fun c => c != '\n')) true))
        (.opt (.chr '\n') true)))

/-- The fallback pattern without its `(?:^|\n)` lead:
`#{1,3}\s+Attendees\s*\n+?((?:[-*]\s+[^\n]+\n?)+)`. -/
def fallbackCore : RE :=
  .seq attendeesHeading
    (.seq wsStar
      (.seq nlPlusLazy
        (.grp 1 (.seq bulletLine (.star bulletLine true)))))

/-! ### The extraction function -/

/-- Split a char list at every occurrence of `sep` (Python `str.split`,
which keeps empty fragments). -/
def splitChar (sep : Char) : List Char → List Char → List (List Char)
  | [], acc => [acc.reverse]
  | c :: rest, acc =>
    if c = sep then acc.reverse :: splitChar sep rest []
    else splitChar sep rest (c :: acc)

/-- Python `.rstrip(',*')`. -/
def rstripCommaStar (l : List Char) : List Char :=
  (l.reverse.dropWhile (fun c => c = ',' || c = '*')).reverse

/-- The hard-coded stoplist `['agenda', 'summary', 'actions', 'notes']`. -/
def stoplist : List String := ["agenda", "summary", "actions", "notes"]

/-- Python-truthiness of an optional captured group. -/
def truthyGroup : Option (List Char) → Bool
  | none => false
  | some v => decide (v ≠ [])

/-- `item.group(1) or item.group(3) or item.group(4)`. -/
def groupOr (g : Groups) : Option (List Char) :=
  if truthyGroup (getGroup g 1) then getGroup g 1
  else if truthyGroup (getGroup g 3) then getGroup g 3
  else getGroup g 4

/-- The shared bullet-item processing (lines 83-94 and 131-143): for each
bullet match take the first truthy of groups 1, 3, 4; keep it unless its
raw text case-folds to a stoplist word; strip and `rstrip(',*')`; add. -/
def processBullets (att : List String) (sectionText : List Char) : List String :=
  (finditer bulletCore sectionText).foldl (fun att g =>
    match groupOr g with
    | none => att
    | some v =>
      if v ≠ [] ∧ String.mk (v.map Char.toLower) ∉ stoplist then
        pyAdd att (String.mk (rstripCommaStar (pyStripL v)))
      else att) att

/-- Processing of one heading section body (lines 78-113): bullet items,
then — only when the section text contains no `-` or `*` at all — either
the comma-separated or the one-name-per-line branch.  Neither of the two
latter branches consults the stoplist. -/
def processSection (att : List String) (body : List Char) : List String :=
  let sectionText := pyStripL body
  let att1 := processBullets att sectionText
  if ¬ (sectionText.any (fun c => c = '-' || c = '*')) then
    let lines := ((splitChar '\n' sectionText []).map pyStripL).filter (fun l => decide (l ≠ []))
    if lines ≠ [] then
      if lines.any (fun l => l.any (fun c => c = ',')) then
        lines.foldl (fun att line =>
          (splitChar ',' line []).foldl (fun att name =>
            let nm := rstripCommaStar (pyStripL name)
            if nm ≠ [] ∧ 1 < nm.length then pyAdd att (String.mk nm) else att) att) att1
      else
        lines.foldl (fun att line =>
          let nm := rstripCommaStar (pyStripL line)
          if nm ≠ [] ∧ 1 < nm.length then pyAdd att (String.mk nm) else att) att1
    else att1
  else att1

/-- Processing of the inline `Attendees:`/`Participants:` label match
(lines 116-124); no stoplist filtering here either. -/
def processLabelMatch (att : List String) (g : Groups) : List String :=
  match getGroup g 1 with
  | none => att
  | some v =>
    (splitChar '\n' (pyStripL v) []).foldl (fun att line =>
      (splitChar ',' line []).foldl (fun att name =>
        let nm := rstripCommaStar (pyStripL name)
        if nm ≠ [] ∧ ¬ startsWithL nm ['-'] = true ∧ 1 < nm.length
        then pyAdd att (String.mk nm) else att) att) att

/-- `extract_meeting_attendees`, restricted to the attendee set it returns
(the meeting number and date extraction do not interact with it): heading
sections (pattern 1), the inline label (pattern 2), and the fallback
bullet block, accumulated into one Python set. -/
def extract_meeting_attendees (content : String) : List String :=
  let cs := content.data
  let att1 := (finditerLead sectionCore cs).foldl (fun att g =>
    match getGroup g 1 with
    | some body => processSection att body
    | none => att) []
  let att2 := match searchLead labelCore cs with
    | some g => processLabelMatch att1 g
    | none => att1
  match searchLead fallbackCore cs with
  | some g =>
    match getGroup g 1 with
    | some v => processBullets att2 (pyStripL v)
    | none => att2
  | none => att2

/-- C8 (theorem): the stoplist is consulted only by the bullet-item
branches.  On the meeting notes `"Attendees: Alice, Agenda\n\nEnd"` the
inline-label pattern extracts the attendees, no stoplist check runs, and
the section-label word "Agenda" lands in the attendee set — against the
requirement that the stoplist be excluded regardless of which pattern
matched.  By contrast, the same word offered through a bullet line under
an `# Attendees` heading is correctly excluded. -/
theorem stoplist_missed_by_label_branch :
    extract_meeting_attendees "Attendees: Alice, Agenda\n\nEnd" = ["Alice", "Agenda"] ∧
    "Agenda" ∈ extract_meeting_attendees "Attendees: Alice, Agenda\n\nEnd" ∧
    "agenda" ∈ stoplist ∧
    extract_meeting_attendees "# Attendees\n- Alice\n- Agenda\n" = ["Alice"] := by
  decide

end GovNakamoto
